import Mathlib

/-!
Verification of the epub-lsp language server against its specification.

Byte contents are modelled as `List Char` (one entry per byte of the Go
`[]byte`/`string` values; all concrete inputs are ASCII, where the two
coincide).  Go `int` results that can be negative are modelled as `Int`;
indices known to be non-negative are `Nat`.
-/

namespace EpubLsp

/-- The single-quote character, written by code point to keep source plain. -/
def squote : Char := Char.ofNat 39

/-- `isPre pat l` is Go `bytes.HasPrefix l pat`: `pat` is an initial run of `l`. -/
def isPre : List Char → List Char → Bool
  | [], _ => true
  | _ :: _, [] => false
  | a :: as, b :: bs => a = b && isPre as bs

/-- Go `strings.Index`/`bytes.Index`: index of the first occurrence of `pat`
in `s`, `none` when absent (Go returns `-1`). -/
def strIndex : List Char → List Char → Option Nat
  | [], pat => if isPre pat [] then some 0 else none
  | c :: t, pat =>
    if isPre pat (c :: t) then some 0 else (strIndex t pat).map (· + 1)

/-- Go `strings.IndexByte`: index of the first occurrence of character `c`. -/
def chIndex : List Char → Char → Option Nat
  | [], _ => none
  | b :: t, c => if b = c then some 0 else (chIndex t c).map (· + 1)

/-- Association-list read, modelling a Go map read (`m[k]`, comma-ok form). -/
def lookupA {κ : Type} [DecidableEq κ] {α : Type} : List (κ × α) → κ → Option α
  | [], _ => none
  | (k', v) :: t, k => if k' = k then some v else lookupA t k

/-- Association-list write, modelling a Go map write `m[k] = v`. -/
def upsert {κ : Type} [DecidableEq κ] {α : Type} : List (κ × α) → κ → α → List (κ × α)
  | [], k, v => [(k, v)]
  | (k', v') :: t, k, v => if k' = k then (k, v) :: t else (k', v') :: upsert t k v

section PositionTranslator

/-- LSP position, from `Position` in the source (zero-based line / character). -/
structure Position where
  line : Int
  character : Int
deriving Repr, DecidableEq

/-- Loop of `PositionToByteOffset`: scan `content` keeping the (line, column)
reached after `i` consumed bytes; return `i` at the first state equal to
`pos`, the total length if the final state matches, and `-1` otherwise. -/
def positionToByteOffsetAux : List Char → Position → Int → Int → Nat → Int
  | [], pos, line, col, i =>
    if line = pos.line ∧ col = pos.character then (i : Int) else -1
  | c :: rest, pos, line, col, i =>
    if line = pos.line ∧ col = pos.character then (i : Int)
    else if c = '\n' then positionToByteOffsetAux rest pos (line + 1) 0 (i + 1)
    else positionToByteOffsetAux rest pos line (col + 1) (i + 1)

/-- `PositionToByteOffset` from the source: line/character position to byte
offset, `-1` when the position is out of range. -/
def PositionToByteOffset (content : List Char) (pos : Position) : Int :=
  positionToByteOffsetAux content pos 0 0 0

/-- Loop of `ByteOffsetToPosition`: consume `offset` bytes, counting line
breaks and the characters since the last one. -/
def byteOffsetToPositionAux : List Char → Nat → Int → Int → Position
  | _, 0, line, col => ⟨line, col⟩
  | [], _ + 1, line, col => ⟨line, col⟩
  | c :: rest, o + 1, line, col =>
    if c = '\n' then byteOffsetToPositionAux rest o (line + 1) 0
    else byteOffsetToPositionAux rest o line (col + 1)

/-- `ByteOffsetToPosition` from the source: byte offset to zero-based
line/character, clamping the offset into `[0, len content]`. -/
def ByteOffsetToPosition (content : List Char) (offset : Int) : Position :=
  if offset < 0 then ⟨0, 0⟩
  else byteOffsetToPositionAux content (min offset.toNat content.length) 0 0

theorem byteOffsetToPositionAux_mono (content : List Char) :
    ∀ (o : Nat) (line col : Int),
      line < (byteOffsetToPositionAux content o line col).line ∨
      ((byteOffsetToPositionAux content o line col).line = line ∧
        col ≤ (byteOffsetToPositionAux content o line col).character) := by
  induction content with
  | nil =>
    intro o line col
    cases o <;> simp [byteOffsetToPositionAux]
  | cons c rest ih =>
    intro o line col
    cases o with
    | zero => simp [byteOffsetToPositionAux]
    | succ o' =>
      by_cases hc : c = '\n'
      · simp only [byteOffsetToPositionAux, if_pos hc]
        rcases ih o' (line + 1) 0 with h | ⟨h, _⟩
        · left; omega
        · left; omega
      · simp only [byteOffsetToPositionAux, if_neg hc]
        rcases ih o' line (col + 1) with h | ⟨h1, h2⟩
        · left; exact h
        · right; exact ⟨h1, by omega⟩

theorem roundtrip_aux (content : List Char) :
    ∀ (o : Nat), o ≤ content.length →
      ∀ (line col : Int) (i : Nat),
        positionToByteOffsetAux content
            (byteOffsetToPositionAux content o line col) line col i
          = ((i + o : Nat) : Int) := by
  induction content with
  | nil =>
    intro o ho line col i
    have : o = 0 := by simpa using ho
    subst this
    simp [byteOffsetToPositionAux, positionToByteOffsetAux]
  | cons c rest ih =>
    intro o ho line col i
    cases o with
    | zero =>
      simp [byteOffsetToPositionAux, positionToByteOffsetAux]
    | succ o' =>
      have ho' : o' ≤ rest.length := by simpa using ho
      by_cases hc : c = '\n'
      · simp only [byteOffsetToPositionAux, if_pos hc]
        have hmono := byteOffsetToPositionAux_mono rest o' (line + 1) 0
        have hne : ¬(line = (byteOffsetToPositionAux rest o' (line + 1) 0).line ∧
            col = (byteOffsetToPositionAux rest o' (line + 1) 0).character) := by
          rcases hmono with h | ⟨h, _⟩
          · intro hcon; omega
          · intro hcon; omega
        simp only [positionToByteOffsetAux, if_neg hne, if_pos hc]
        rw [ih o' ho' (line + 1) 0 (i + 1)]
        congr 1
        omega
      · simp only [byteOffsetToPositionAux, if_neg hc]
        have hmono := byteOffsetToPositionAux_mono rest o' line (col + 1)
        have hne : ¬(line = (byteOffsetToPositionAux rest o' line (col + 1)).line ∧
            col = (byteOffsetToPositionAux rest o' line (col + 1)).character) := by
          rcases hmono with h | ⟨h1, h2⟩
          · intro hcon; omega
          · intro hcon; omega
        simp only [positionToByteOffsetAux, if_neg hne, if_neg hc]
        rw [ih o' ho' line (col + 1) (i + 1)]
        congr 1
        omega

/-- C1.  Position translation round-trip: for every byte content `D` and every
offset `o` with `0 ≤ o ≤ len D`,
`PositionToByteOffset D (ByteOffsetToPosition D o) = o`. -/
theorem positionTranslation_roundTrip (content : List Char) (o : Nat)
    (h : o ≤ content.length) :
    PositionToByteOffset content (ByteOffsetToPosition content (o : Int)) = (o : Int) := by
  have hofs : ¬((o : Int) < 0) := by omega
  have htn : (o : Int).toNat = o := Int.toNat_natCast o
  have hmin : min (o : Int).toNat content.length = o := by
    rw [htn]; omega
  rw [ByteOffsetToPosition, if_neg hofs, hmin, PositionToByteOffset,
    roundtrip_aux content o h 0 0 0]
  simp

/-- Witness for C1 at a concrete document and offset. -/
theorem positionTranslation_roundTrip_witness :
    PositionToByteOffset ['a', '\n', 'b'] (ByteOffsetToPosition ['a', '\n', 'b'] (2 : Nat)) =
      ((2 : Nat) : Int) :=
  positionTranslation_roundTrip ['a', '\n', 'b'] 2 (by decide)

end PositionTranslator

section TagSpanResolver

/-- One step of the quote tracking done by `findStartTagEnd`: inside a quoted
string only the matching quote leaves it; outside, a quote character enters. -/
def qstep : Option Char → Char → Option Char
  | some qc, c => if c = qc then none else some qc
  | none, c => if c = '"' ∨ c = squote then some c else none

/-- Quote-tracking state after scanning `cs` starting from state `q`. -/
def quoteState (cs : List Char) (q : Option Char) : Option Char :=
  cs.foldl qstep q

/-- Loop of `findStartTagEnd`, scanning the suffix of the content that starts
at absolute index `i`, with `len` the total content length (for the fallback
`len - 1` of the source). -/
def findStartTagEndAux (len : Nat) : List Char → Nat → Option Char → Int
  | [], _, _ => (len : Int) - 1
  | c :: rest, i, some qc =>
    if c = qc then findStartTagEndAux len rest (i + 1) none
    else findStartTagEndAux len rest (i + 1) (some qc)
  | c :: rest, i, none =>
    if c = '"' ∨ c = squote then findStartTagEndAux len rest (i + 1) (some c)
    else if c = '>' then (i : Int)
    else findStartTagEndAux len rest (i + 1) none

/-- `findStartTagEnd` from the source: position of the `>` closing the start
tag, falling back to `len content - 1` when none exists. -/
def findStartTagEnd (content : List Char) (tagStart : Nat) : Int :=
  findStartTagEndAux content.length (content.drop tagStart) tagStart none

/-- There is a `>` at relative index `d` of `s` that is not inside a single-
or double-quoted string, for quote-tracking started in state `q`. -/
def UnquotedGtAt (s : List Char) (q : Option Char) (d : Nat) : Prop :=
  s.get? d = some '>' ∧ quoteState (s.take d) q = none

theorem unquotedGtAt_zero (c : Char) (rest : List Char) (q : Option Char) :
    UnquotedGtAt (c :: rest) q 0 ↔ (c = '>' ∧ q = none) := by
  simp [UnquotedGtAt, quoteState]

theorem unquotedGtAt_succ (c : Char) (rest : List Char) (q : Option Char) (d : Nat) :
    UnquotedGtAt (c :: rest) q (d + 1) ↔ UnquotedGtAt rest (qstep q c) d := by
  simp [UnquotedGtAt, quoteState, List.take_succ_cons]

theorem findStartTagEndAux_step (c : Char) (rest : List Char) (len i : Nat)
    (q : Option Char)
    (haux : findStartTagEndAux len (c :: rest) i q =
      findStartTagEndAux len rest (i + 1) (qstep q c))
    (hz : ¬ UnquotedGtAt (c :: rest) q 0)
    (ih : (∃ d, UnquotedGtAt rest (qstep q c) d ∧
            (∀ e, e < d → ¬ UnquotedGtAt rest (qstep q c) e) ∧
            findStartTagEndAux len rest (i + 1) (qstep q c) = ((i + 1 + d : Nat) : Int))
        ∨ ((∀ d, ¬ UnquotedGtAt rest (qstep q c) d) ∧
            findStartTagEndAux len rest (i + 1) (qstep q c) = (len : Int) - 1)) :
    (∃ d, UnquotedGtAt (c :: rest) q d ∧ (∀ e, e < d → ¬ UnquotedGtAt (c :: rest) q e) ∧
        findStartTagEndAux len (c :: rest) i q = ((i + d : Nat) : Int))
    ∨ ((∀ d, ¬ UnquotedGtAt (c :: rest) q d) ∧
        findStartTagEndAux len (c :: rest) i q = (len : Int) - 1) := by
  rcases ih with ⟨d, hd, hmin, heq⟩ | ⟨hall, heq⟩
  · left
    refine ⟨d + 1, (unquotedGtAt_succ _ _ _ _).mpr hd, ?_, ?_⟩
    · intro e he
      cases e with
      | zero => exact hz
      | succ e' =>
        rw [unquotedGtAt_succ]
        exact hmin e' (by omega)
    · rw [haux, heq]
      congr 1
      omega
  · right
    refine ⟨?_, by rw [haux, heq]⟩
    intro d
    cases d with
    | zero => exact hz
    | succ d' =>
      rw [unquotedGtAt_succ]
      exact hall d'

theorem findStartTagEndAux_spec (s : List Char) :
    ∀ (len i : Nat) (q : Option Char),
      (∃ d, UnquotedGtAt s q d ∧ (∀ e, e < d → ¬ UnquotedGtAt s q e) ∧
          findStartTagEndAux len s i q = ((i + d : Nat) : Int))
    ∨ ((∀ d, ¬ UnquotedGtAt s q d) ∧ findStartTagEndAux len s i q = (len : Int) - 1) := by
  induction s with
  | nil =>
    intro len i q
    right
    refine ⟨fun d => ?_, rfl⟩
    simp [UnquotedGtAt]
  | cons c rest ih =>
    intro len i q
    cases q with
    | some qc =>
      refine findStartTagEndAux_step c rest len i (some qc) ?_ ?_ (ih len (i + 1) _)
      · by_cases hc : c = qc <;> simp [findStartTagEndAux, hc, qstep]
      · rw [unquotedGtAt_zero]
        rintro ⟨-, h⟩
        exact Option.noConfusion h
    | none =>
      by_cases hquote : c = '"' ∨ c = squote
      · refine findStartTagEndAux_step c rest len i none ?_ ?_ (ih len (i + 1) _)
        · simp [findStartTagEndAux, hquote, qstep]
        · rw [unquotedGtAt_zero]
          rintro ⟨hcg, -⟩
          subst hcg
          rcases hquote with h | h <;> exact absurd h (by decide)
      · by_cases hg : c = '>'
        · left
          refine ⟨0, ?_, fun e he => absurd he (Nat.not_lt_zero e), ?_⟩
          · rw [unquotedGtAt_zero]
            exact ⟨hg, rfl⟩
          · subst hg
            simp [findStartTagEndAux, show ('>' = '"') = False by decide,
              show ('>' = squote) = False by decide]
        · refine findStartTagEndAux_step c rest len i none ?_ ?_ (ih len (i + 1) _)
          · simp [findStartTagEndAux, hquote, hg, qstep]
          · rw [unquotedGtAt_zero]
            rintro ⟨hcg, -⟩
            exact hg hcg

/-- C7.  Start-tag end resolution: `findStartTagEnd` returns the index of the
first `>` at or after `tagStart` that is not inside a single- or double-quoted
string, and falls back to `len content - 1` (the end of the content) when no
such `>` exists; it is total, never failing. -/
theorem findStartTagEnd_firstUnquotedGt (content : List Char) (tagStart : Nat) :
    (∃ d, UnquotedGtAt (content.drop tagStart) none d
        ∧ (∀ e, e < d → ¬ UnquotedGtAt (content.drop tagStart) none e)
        ∧ findStartTagEnd content tagStart = ((tagStart + d : Nat) : Int))
  ∨ ((∀ d, ¬ UnquotedGtAt (content.drop tagStart) none d)
        ∧ findStartTagEnd content tagStart = (content.length : Int) - 1) :=
  findStartTagEndAux_spec (content.drop tagStart) content.length tagStart none

end TagSpanResolver

theorem isPre_length_le : ∀ (pat l : List Char), isPre pat l = true → pat.length ≤ l.length
  | [], _, _ => by simp
  | _ :: _, [], h => by simp [isPre] at h
  | a :: as, b :: bs, h => by
    simp only [isPre, Bool.and_eq_true, decide_eq_true_eq] at h
    simpa using isPre_length_le as bs h.2

theorem strIndex_some : ∀ (s pat : List Char) (i : Nat), strIndex s pat = some i →
    isPre pat (s.drop i) = true ∧ ∀ k, k < i → isPre pat (s.drop k) = false
  | [], pat, i, h => by
    rw [strIndex] at h
    by_cases hp : isPre pat []
    · rw [if_pos hp] at h
      obtain rfl : i = 0 := by simpa using h.symm
      exact ⟨by simpa using hp, fun k hk => absurd hk (Nat.not_lt_zero k)⟩
    · rw [if_neg hp] at h
      exact absurd h (by simp)
  | c :: t, pat, i, h => by
    rw [strIndex] at h
    by_cases hp : isPre pat (c :: t)
    · rw [if_pos hp] at h
      obtain rfl : i = 0 := by simpa using h.symm
      exact ⟨by simpa using hp, fun k hk => absurd hk (Nat.not_lt_zero k)⟩
    · rw [if_neg hp] at h
      obtain ⟨i', hi', rfl⟩ : ∃ i', strIndex t pat = some i' ∧ i = i' + 1 := by
        rcases Option.map_eq_some'.mp h with ⟨i', h1, h2⟩
        exact ⟨i', h1, h2.symm⟩
      obtain ⟨h1, h2⟩ := strIndex_some t pat i' hi'
      refine ⟨by simpa using h1, fun k hk => ?_⟩
      cases k with
      | zero => simpa using Bool.eq_false_iff.mpr hp
      | succ k' => simpa using h2 k' (by omega)

theorem strIndex_none : ∀ (s pat : List Char), strIndex s pat = none →
    ∀ k, isPre pat (s.drop k) = false
  | [], pat, h => by
    rw [strIndex] at h
    by_cases hp : isPre pat []
    · rw [if_pos hp] at h
      exact absurd h (by simp)
    · intro k
      have hpat : pat ≠ [] := by
        intro hc
        subst hc
        exact hp (by simp [isPre])
      cases pat with
      | nil => exact absurd rfl hpat
      | cons a as => simp [isPre]
  | c :: t, pat, h => by
    rw [strIndex] at h
    by_cases hp : isPre pat (c :: t)
    · rw [if_pos hp] at h
      exact absurd h (by simp)
    · rw [if_neg hp] at h
      intro k
      have ht : strIndex t pat = none := by
        cases hx : strIndex t pat with
        | none => rfl
        | some v => rw [hx] at h; simp at h
      cases k with
      | zero => simpa using Bool.eq_false_iff.mpr hp
      | succ k' => simpa using strIndex_none t pat ht k'

theorem chIndex_some : ∀ (s : List Char) (c : Char) (i : Nat), chIndex s c = some i →
    s.get? i = some c ∧ ∀ k, k < i → s.get? k ≠ some c
  | [], c, i, h => by simp [chIndex] at h
  | b :: t, c, i, h => by
    rw [chIndex] at h
    by_cases hb : b = c
    · rw [if_pos hb] at h
      obtain rfl : i = 0 := by simpa using h.symm
      exact ⟨by simpa using hb, fun k hk => absurd hk (Nat.not_lt_zero k)⟩
    · rw [if_neg hb] at h
      obtain ⟨i', hi', rfl⟩ : ∃ i', chIndex t c = some i' ∧ i = i' + 1 := by
        rcases Option.map_eq_some'.mp h with ⟨i', h1, h2⟩
        exact ⟨i', h1, h2.symm⟩
      obtain ⟨h1, h2⟩ := chIndex_some t c i' hi'
      refine ⟨by simpa using h1, fun k hk => ?_⟩
      cases k with
      | zero => simpa using hb
      | succ k' => simpa using h2 k' (by omega)

theorem chIndex_none : ∀ (s : List Char) (c : Char), chIndex s c = none →
    ∀ k, s.get? k ≠ some c
  | [], c, _, k => by simp
  | b :: t, c, h, k => by
    rw [chIndex] at h
    by_cases hb : b = c
    · rw [if_pos hb] at h
      exact absurd h (by simp)
    · rw [if_neg hb] at h
      have ht : chIndex t c = none := by
        cases hx : chIndex t c with
        | none => rfl
        | some v => rw [hx] at h; simp at h
      cases k with
      | zero => simpa using hb
      | succ k' => simpa using chIndex_none t c ht k'

section ElementEnd

/-- `findElementEnd` from the source: approximate end of an element.  If the
start tag is self-closing (the byte just before the start-tag end is `/`),
the start-tag end; otherwise the `>` following the first occurrence of the
literal `</localName` after the start tag, falling back to the start-tag end
when either is absent. -/
def findElementEnd (content : List Char) (tagStart : Nat) (localName : List Char) : Int :=
  let startTagEnd := findStartTagEnd content tagStart
  if 0 < startTagEnd ∧ content.get? (startTagEnd.toNat - 1) = some '/' then startTagEnd
  else
    let closeTag := '<' :: '/' :: localName
    match strIndex (content.drop startTagEnd.toNat) closeTag with
    | some idx =>
      match chIndex (content.drop (startTagEnd.toNat + idx + closeTag.length)) '>' with
      | some k => ((startTagEnd.toNat + idx + closeTag.length + k : Nat) : Int)
      | none => startTagEnd
    | none => startTagEnd

/-- The pattern `pat` occurs in `content` starting at index `i`. -/
def OccursAt (content pat : List Char) (i : Nat) : Prop :=
  isPre pat (content.drop i) = true

/-- Modelled from the spec wording of C6 only (for comparison with the code):
the last non-quote character strictly before index `j` of the content. -/
def specLastNonQuoteCharBefore (content : List Char) (j : Nat) : Option Char :=
  ((content.take j).filter (fun c => !(c = '"' || c = squote))).getLast?

/-- C6, counterexample.  For `<x a="b/"></x>` the start tag ends at index 9
and the last non-quote character before that `>` is `/` — the claim therefore
calls the tag self-closing and demands that `findElementEnd` return the
start-tag end 9 — yet the code returns 13 (the end of `</x>`), because it
only inspects the byte immediately before the `>`, which is `"`. -/
theorem findElementEnd_selfClosing_cex :
    findStartTagEnd ("<x a=\"b/\"></x>".data) 0 = 9 ∧
    specLastNonQuoteCharBefore ("<x a=\"b/\"></x>".data) 9 = some '/' ∧
    findElementEnd ("<x a=\"b/\"></x>".data) 0 ("x".data) = 13 ∧
    (13 : Int) ≠ 9 := by
  refine ⟨by decide, by decide, by decide, by decide⟩

/-- C6, amended.  Element end resolution, with the self-closing test as the
code performs it: when the start-tag end is positive and the byte immediately
before it is `/`, the start-tag end is returned; otherwise the result is the
first `>` at or after the end of the first occurrence of the literal
`</localName` past the start tag; with no such occurrence, or no `>` after
it, the start-tag end is returned.  (Go panics on empty content, hence the
nonemptiness hypothesis.) -/
theorem findElementEnd_resolution (content : List Char) (tagStart : Nat)
    (localName : List Char) (hne : content ≠ []) :
    (0 < findStartTagEnd content tagStart ∧
        content.get? ((findStartTagEnd content tagStart).toNat - 1) = some '/' →
      findElementEnd content tagStart localName = findStartTagEnd content tagStart)
    ∧ (¬(0 < findStartTagEnd content tagStart ∧
          content.get? ((findStartTagEnd content tagStart).toNat - 1) = some '/') →
        ((∀ i, ¬ OccursAt content ('<' :: '/' :: localName)
              ((findStartTagEnd content tagStart).toNat + i)) →
            findElementEnd content tagStart localName = findStartTagEnd content tagStart)
        ∧ ∀ i, OccursAt content ('<' :: '/' :: localName)
              ((findStartTagEnd content tagStart).toNat + i) →
            (∀ k, k < i → ¬ OccursAt content ('<' :: '/' :: localName)
              ((findStartTagEnd content tagStart).toNat + k)) →
            ((∃ j, content.get? ((findStartTagEnd content tagStart).toNat + i +
                    ('<' :: '/' :: localName).length + j) = some '>'
                ∧ (∀ m, m < j → content.get? ((findStartTagEnd content tagStart).toNat + i +
                    ('<' :: '/' :: localName).length + m) ≠ some '>')
                ∧ findElementEnd content tagStart localName =
                    (((findStartTagEnd content tagStart).toNat + i +
                      ('<' :: '/' :: localName).length + j : Nat) : Int))
             ∨ ((∀ j, content.get? ((findStartTagEnd content tagStart).toNat + i +
                    ('<' :: '/' :: localName).length + j) ≠ some '>')
                ∧ findElementEnd content tagStart localName =
                    findStartTagEnd content tagStart))) := by
  constructor
  · intro hself
    simp only [findElementEnd]
    rw [if_pos hself]
  · intro hnself
    have hocc_conv : ∀ i,
        OccursAt content ('<' :: '/' :: localName)
            ((findStartTagEnd content tagStart).toNat + i) ↔
        isPre ('<' :: '/' :: localName)
            ((content.drop (findStartTagEnd content tagStart).toNat).drop i) = true := by
      intro i
      rw [OccursAt, List.drop_drop]
    constructor
    · intro hnone
      cases hIdx : strIndex (content.drop (findStartTagEnd content tagStart).toNat)
          ('<' :: '/' :: localName) with
      | none =>
        simp only [findElementEnd]
        rw [if_neg hnself]
        simp only [hIdx]
      | some idx =>
        exact absurd ((hocc_conv idx).mpr (strIndex_some _ _ _ hIdx).1) (hnone idx)
    · intro i hocc hmin
      cases hIdx : strIndex (content.drop (findStartTagEnd content tagStart).toNat)
          ('<' :: '/' :: localName) with
      | none =>
        exact absurd ((hocc_conv i).mp hocc)
          (by simpa using strIndex_none _ _ hIdx i)
      | some idx =>
        obtain ⟨hs1, hs2⟩ := strIndex_some _ _ _ hIdx
        obtain rfl : i = idx := by
          by_contra hne2
          rcases Nat.lt_or_ge i idx with hlt | hge
          · have := hs2 i hlt
            rw [(hocc_conv i)] at hocc
            rw [hocc] at this
            exact Bool.noConfusion this
          · exact (hmin idx (by omega)) ((hocc_conv idx).mpr hs1)
        cases hch : chIndex (content.drop
            ((findStartTagEnd content tagStart).toNat + i +
              ('<' :: '/' :: localName).length)) '>' with
        | some k =>
          left
          obtain ⟨hc1, hc2⟩ := chIndex_some _ _ _ hch
          refine ⟨k, ?_, ?_, ?_⟩
          · rw [← List.get?_drop]
            exact hc1
          · intro m hm
            rw [← List.get?_drop]
            exact hc2 m hm
          · simp only [findElementEnd]
            rw [if_neg hnself]
            simp only [hIdx, hch]
        | none =>
          right
          refine ⟨fun j => ?_, ?_⟩
          · rw [← List.get?_drop]
            exact chIndex_none _ _ hch j
          · simp only [findElementEnd]
            rw [if_neg hnself]
            simp only [hIdx, hch]

/-- Witness for the amended C6 at a self-closing tag. -/
theorem findElementEnd_resolution_witness :
    ("<a/>".data ≠ ([] : List Char)) ∧
      findElementEnd "<a/>".data 0 "a".data = findStartTagEnd "<a/>".data 0 :=
  ⟨by decide, (findElementEnd_resolution "<a/>".data 0 "a".data (by decide)).1 (by decide)⟩

end ElementEnd

theorem strIndex_le : ∀ (s pat : List Char) (i : Nat), strIndex s pat = some i →
    i + pat.length ≤ s.length
  | [], pat, i, h => by
    rw [strIndex] at h
    by_cases hp : isPre pat []
    · rw [if_pos hp] at h
      obtain rfl : i = 0 := by simpa using h.symm
      cases pat with
      | nil => simp
      | cons a as => simp [isPre] at hp
    · rw [if_neg hp] at h
      exact absurd h (by simp)
  | c :: t, pat, i, h => by
    rw [strIndex] at h
    by_cases hp : isPre pat (c :: t)
    · rw [if_pos hp] at h
      obtain rfl : i = 0 := by simpa using h.symm
      simpa using isPre_length_le pat (c :: t) hp
    · rw [if_neg hp] at h
      obtain ⟨i', hi', rfl⟩ : ∃ i', strIndex t pat = some i' ∧ i = i' + 1 := by
        rcases Option.map_eq_some'.mp h with ⟨i', h1, h2⟩
        exact ⟨i', h1, h2.symm⟩
      have := strIndex_le t pat i' hi'
      simp only [List.length_cons]
      omega

theorem chIndex_lt : ∀ (s : List Char) (c : Char) (i : Nat), chIndex s c = some i →
    i < s.length
  | [], c, i, h => by simp [chIndex] at h
  | b :: t, c, i, h => by
    rw [chIndex] at h
    by_cases hb : b = c
    · rw [if_pos hb] at h
      obtain rfl : i = 0 := by simpa using h.symm
      simp
    · rw [if_neg hb] at h
      obtain ⟨i', hi', rfl⟩ : ∃ i', chIndex t c = some i' ∧ i = i' + 1 := by
        rcases Option.map_eq_some'.mp h with ⟨i', h1, h2⟩
        exact ⟨i', h1, h2.symm⟩
      have := chIndex_lt t c i' hi'
      simp only [List.length_cons]
      omega

section AttributeLocator

/-- Whitespace characters of the cutset `" \t\n\r"` used by the source's
`strings.TrimLeft` calls. -/
def isWS (c : Char) : Bool := c = ' ' || c = '\t' || c = '\n' || c = '\r'

theorem dropWhile_length_le (p : Char → Bool) (l : List Char) :
    (l.dropWhile p).length ≤ l.length := by
  induction l with
  | nil => simp
  | cons c t ih =>
    rw [List.dropWhile_cons]
    split
    · simp only [List.length_cons]
      omega
    · simp

/-- Loop of `namespacePrefixes`, scanning `rest` and accumulating the
`uri ↦ prefix` map built from `xmlns:`-prefixed declarations.  The loop is
driven by fuel: every iteration of the Go loop strictly shrinks `rest` (a
found `xmlns:` alone consumes six bytes), so fuel `len rest + 1` is never
exhausted. -/
def namespacePrefixesAux : Nat → List Char → List (List Char × List Char) →
    List (List Char × List Char)
  | 0, _, result => result
  | fuel + 1, rest, result =>
    match strIndex rest "xmlns:".data with
    | none => result
    | some idx =>
      match chIndex (rest.drop (idx + 6)) '=' with
      | none => result
      | some eqIdx =>
        match ((rest.drop (idx + 6)).drop (eqIdx + 1)).dropWhile isWS with
        | [] => result
        | q :: r3 =>
          if q ≠ '"' ∧ q ≠ squote then
            namespacePrefixesAux fuel (q :: r3) result
          else
            match chIndex r3 q with
            | none => result
            | some endQ =>
              namespacePrefixesAux fuel (r3.drop (endQ + 1))
                (upsert result (r3.take endQ) ((rest.drop (idx + 6)).take eqIdx))

/-- `namespacePrefixes` from the source: extracts `xmlns:prefix="uri"`
declarations from a tag's text into a `uri ↦ prefix` map. -/
def namespacePrefixes (tagText : List Char) : List (List Char × List Char) :=
  namespacePrefixesAux (tagText.length + 1) tagText []

/-- The candidate check of `findAttributeInTag` (source lines following the
`strings.Index` hit): optional whitespace, `=`, optional whitespace, a quote,
and a quoted value equal to the expected one. -/
def attrCandidateMatches (value rest0 : List Char) : Bool :=
  match rest0.dropWhile isWS with
  | '=' :: r2 =>
    (match r2.dropWhile isWS with
     | q :: r4 =>
       if q = '"' ∨ q = squote then
         (match chIndex r4 q with
          | some endQ => decide (r4.take endQ = value)
          | none => false)
       else false
     | [] => false)
  | _ => false

/-- Outcome of one iteration of the `findAttributeInTag` loop. -/
inductive AttrStep where
  | done (r : Option Nat)
  | next (search : List Char) (base : Nat)
deriving DecidableEq, Repr

/-- One iteration of the `findAttributeInTag` loop: find the next candidate
name occurrence, accept it if `attrCandidateMatches`, otherwise advance past
the name. -/
def findAttrStep (name value search : List Char) (base : Nat) : AttrStep :=
  match strIndex search name with
  | none => AttrStep.done none
  | some idx =>
    if attrCandidateMatches value (search.drop (idx + name.length)) then
      AttrStep.done (some (base + idx))
    else AttrStep.next (search.drop (idx + name.length)) (base + idx + name.length)

/-- Fuel-driven unfolding of the `findAttributeInTag` loop; `none` means the
fuel ran out (which, as proved below, happens for no non-empty `name`,
matching the Go loop, which terminates for every non-empty name and loops
forever on an unmatched empty name). -/
def findAttributeInTagAux (name value : List Char) : Nat → List Char → Nat → Option (Option Nat)
  | 0, _, _ => none
  | fuel + 1, search, base =>
    match findAttrStep name value search base with
    | .done r => some r
    | .next s' b' => findAttributeInTagAux name value fuel s' b'

/-- `findAttributeInTag` from the source: byte offset of `name="value"` (or
`name='value'`) within the tag text, skipping candidates whose following
text does not match. -/
def findAttributeInTag (tagText name value : List Char) : Option Nat :=
  (findAttributeInTagAux name value (tagText.length + 1) tagText 0).getD none

theorem findAttrStep_shrinks (name value search : List Char) (base : Nat)
    (s' : List Char) (b' : Nat)
    (h : findAttrStep name value search base = AttrStep.next s' b') :
    s'.length + name.length ≤ search.length := by
  rw [findAttrStep] at h
  cases hidx : strIndex search name with
  | none =>
    simp only [hidx] at h
    exact AttrStep.noConfusion h
  | some idx =>
    simp only [hidx] at h
    have hle := strIndex_le search name idx hidx
    split at h
    · exact AttrStep.noConfusion h
    · obtain ⟨h1, -⟩ := AttrStep.next.inj h
      subst h1
      rw [List.length_drop]
      omega

/-- C10.  Termination of the attribute search: for every non-empty name the
loop of `findAttributeInTag` reaches a result within `len search + 1`
iterations, because every non-returning iteration shrinks the window by at
least `len name ≥ 1` bytes; and the non-emptiness is essential — with an
empty name the window does not shrink and the loop never finishes (modelled
by the fuel never sufficing, at the unmatched tag text `x`). -/
theorem findAttributeInTag_termination :
    (∀ (name value search : List Char) (base : Nat) (s' : List Char) (b' : Nat),
      findAttrStep name value search base = AttrStep.next s' b' →
        s'.length + name.length ≤ search.length)
    ∧ (∀ (name value search : List Char) (base fuel : Nat), name ≠ [] →
        search.length < fuel →
        (findAttributeInTagAux name value fuel search base).isSome = true)
    ∧ (∀ (value : List Char) (fuel base : Nat),
        findAttributeInTagAux [] value fuel ['x'] base = none) := by
  refine ⟨fun name value search base s' b' h => findAttrStep_shrinks _ _ _ _ _ _ h, ?_, ?_⟩
  · intro name value search base fuel
    induction fuel generalizing search base with
    | zero => intro _ h; omega
    | succ fuel ih =>
      intro hname h
      rw [findAttributeInTagAux]
      cases hstep : findAttrStep name value search base with
      | done r => rfl
      | next s' b' =>
        have hsh := findAttrStep_shrinks name value search base s' b' hstep
        have hlen : 0 < name.length := List.length_pos.mpr hname
        exact ih s' b' hname (by omega)
  · intro value fuel
    induction fuel with
    | zero => intro base; rfl
    | succ fuel ih =>
      intro base
      rw [findAttributeInTagAux]
      have hstep : findAttrStep [] value ['x'] base = AttrStep.next ['x'] base := rfl
      rw [hstep]
      exact ih base

/-- Witness for C10: with the non-empty name `a` the loop finishes on the tag
text `a="v"` in the allotted fuel. -/
theorem findAttributeInTag_termination_witness :
    (findAttributeInTagAux "a".data "v".data 7 ("a=".data ++ '"' :: 'v' :: ['"']) 0).isSome
      = true :=
  findAttributeInTag_termination.2.1 "a".data "v".data ("a=".data ++ '"' :: 'v' :: ['"'])
    0 7 (by decide) (by decide)

theorem get?_some_decomp : ∀ (l : List Char) (n : Nat) (a : Char), l.get? n = some a →
    l = l.take n ++ a :: l.drop (n + 1)
  | [], n, a, h => by simp at h
  | b :: t, 0, a, h => by
    simp only [List.get?_cons_zero, Option.some.injEq] at h
    subst h
    simp
  | b :: t, n + 1, a, h => by
    simp only [List.get?_cons_succ] at h
    have ih := get?_some_decomp t n a h
    simp only [List.take_succ_cons, List.cons_append, List.drop_succ_cons]
    exact congrArg (b :: ·) ih

theorem not_mem_take_of_first (l : List Char) (n : Nat) (a : Char)
    (hfirst : ∀ k, k < n → l.get? k ≠ some a) : a ∉ l.take n := by
  intro hmem
  rw [List.mem_iff_get?] at hmem
  obtain ⟨k, hk⟩ := hmem
  have hklt : k < n := by
    obtain ⟨hlt, -⟩ := List.get?_eq_some.mp hk
    rw [List.length_take] at hlt
    omega
  rw [List.get?_take hklt] at hk
  exact hfirst k hklt hk

theorem mem_takeWhile_pred : ∀ (p : Char → Bool) (l : List Char) (c : Char),
    c ∈ l.takeWhile p → p c = true
  | p, [], c, h => by simp at h
  | p, b :: t, c, h => by
    rw [List.takeWhile_cons] at h
    split at h
    · rcases List.mem_cons.mp h with rfl | h2
      · assumption
      · exact mem_takeWhile_pred p t c h2
    · simp at h

/-- Modelled from the claim's wording (C5): the text after a candidate name
consists of optional whitespace, `=`, optional whitespace, and a quoted value
exactly equal to the known value, with the close quote being the first quote
after the opening one. -/
def SpecFollowedByEqValue (rest0 value : List Char) : Prop :=
  ∃ ws1 ws2 q suffix, (q = '"' ∨ q = squote)
    ∧ (∀ c ∈ ws1, isWS c = true) ∧ (∀ c ∈ ws2, isWS c = true)
    ∧ q ∉ value
    ∧ rest0 = ws1 ++ '=' :: (ws2 ++ q :: (value ++ q :: suffix))

theorem attrCandidateMatches_sound (value rest0 : List Char)
    (h : attrCandidateMatches value rest0 = true) :
    SpecFollowedByEqValue rest0 value := by
  rw [attrCandidateMatches] at h
  split at h
  next r2 heq =>
    split at h
    next q r4 heq2 =>
      split at h
      next hq =>
        split at h
        next endQ heq3 =>
          rw [decide_eq_true_eq] at h
          obtain ⟨hg, hmin⟩ := chIndex_some r4 q endQ heq3
          have hdec := get?_some_decomp r4 endQ q hg
          have hnm : q ∉ r4.take endQ := not_mem_take_of_first r4 endQ q hmin
          have hr4 : r4 = value ++ q :: r4.drop (endQ + 1) := by
            rw [← h]
            exact hdec
          have hr2final : r2 = r2.takeWhile isWS ++
              (q :: (value ++ q :: r4.drop (endQ + 1))) := by
            conv_lhs => rw [← List.takeWhile_append_dropWhile (p := isWS) (l := r2)]
            rw [heq2]
            conv_lhs => rw [hr4]
          refine ⟨rest0.takeWhile isWS, r2.takeWhile isWS, q, r4.drop (endQ + 1),
            hq, fun c hc => mem_takeWhile_pred isWS rest0 c hc,
            fun c hc => mem_takeWhile_pred isWS r2 c hc, ?_, ?_⟩
          · rw [← h]
            exact hnm
          · conv_lhs =>
              rw [← List.takeWhile_append_dropWhile (p := isWS) (l := rest0), heq, hr2final]
        next => exact absurd h (by simp)
      next => exact absurd h (by simp)
    next heq2 => exact absurd h (by simp)
  next heq => exact absurd h (by simp)

theorem findAttributeInTagAux_sound :
    ∀ (fuel : Nat) (search : List Char) (base : Nat)
      (tagText name value : List Char) (i : Nat),
      search = tagText.drop base →
      findAttributeInTagAux name value fuel search base = some (some i) →
      isPre name (tagText.drop i) = true ∧
        attrCandidateMatches value (tagText.drop (i + name.length)) = true := by
  intro fuel
  induction fuel with
  | zero =>
    intro search base tagText name value i _ h
    exact Option.noConfusion h
  | succ fuel ih =>
    intro search base tagText name value i hsearch h
    rw [findAttributeInTagAux] at h
    cases hstep : findAttrStep name value search base with
    | done r =>
      rw [hstep] at h
      obtain rfl : r = some i := by simpa using h
      rw [findAttrStep] at hstep
      cases hidx : strIndex search name with
      | none =>
        simp only [hidx] at hstep
        exact absurd (AttrStep.done.inj hstep) (by simp)
      | some idx =>
        simp only [hidx] at hstep
        split at hstep
        next hmatch =>
          obtain rfl : base + idx = i := by simpa using AttrStep.done.inj hstep
          obtain ⟨hocc, -⟩ := strIndex_some search name idx hidx
          constructor
          · rw [hsearch, List.drop_drop] at hocc
            exact hocc
          · rw [hsearch, List.drop_drop] at hmatch
            rwa [← Nat.add_assoc] at hmatch
        next => exact AttrStep.noConfusion hstep
    | next s' b' =>
      rw [hstep] at h
      rw [findAttrStep] at hstep
      cases hidx : strIndex search name with
      | none =>
        simp only [hidx] at hstep
        exact AttrStep.noConfusion hstep
      | some idx =>
        simp only [hidx] at hstep
        split at hstep
        next => exact AttrStep.noConfusion hstep
        next =>
          obtain ⟨hs', hb'⟩ := AttrStep.next.inj hstep
          subst hs'
          subst hb'
          refine ih _ _ tagText name value i ?_ h
          rw [hsearch, List.drop_drop]
          congr 1
          omega

theorem findAttributeInTag_sound (tagText name value : List Char) (i : Nat)
    (h : findAttributeInTag tagText name value = some i) :
    isPre name (tagText.drop i) = true ∧
      SpecFollowedByEqValue (tagText.drop (i + name.length)) value := by
  rw [findAttributeInTag] at h
  have haux : findAttributeInTagAux name value (tagText.length + 1) tagText 0
      = some (some i) := by
    cases hx : findAttributeInTagAux name value (tagText.length + 1) tagText 0 with
    | none =>
      rw [hx] at h
      exact absurd h (by simp)
    | some r =>
      rw [hx] at h
      simp only [Option.getD_some] at h
      rw [h]
  obtain ⟨h1, h2⟩ := findAttributeInTagAux_sound (tagText.length + 1) tagText 0
    tagText name value i (by simp) haux
  exact ⟨h1, attrCandidateMatches_sound _ _ h2⟩

end AttributeLocator

section CursorLocator

/-- `XMLAttr` from the source: an attribute with namespace, local name and
value. -/
structure XMLAttr where
  Space : List Char
  Local : List Char
  Value : List Char
deriving DecidableEq, Repr

/-- `XMLNode` from the source: a parsed XML element (namespace, local name,
attributes, children, accumulated character data, byte offset of the opening
`<`, and its line/column translation). -/
inductive XMLNode : Type where
  | mk (Space Local : List Char) (Attrs : List XMLAttr) (Children : List XMLNode)
      (CharData : List Char) (Offset : Int) (Line Col : Int)

def XMLNode.Space : XMLNode → List Char
  | .mk s _ _ _ _ _ _ _ => s

def XMLNode.Local : XMLNode → List Char
  | .mk _ l _ _ _ _ _ _ => l

def XMLNode.Attrs : XMLNode → List XMLAttr
  | .mk _ _ a _ _ _ _ _ => a

def XMLNode.Children : XMLNode → List XMLNode
  | .mk _ _ _ ch _ _ _ _ => ch

def XMLNode.CharData : XMLNode → List Char
  | .mk _ _ _ _ cd _ _ _ => cd

def XMLNode.Offset : XMLNode → Int
  | .mk _ _ _ _ _ o _ _ => o

/-- Loop of `locateAttribute` over the node's attributes, in source order:
resolve the namespaced spelling, re-find the attribute in the tag text, and
report it when `offset` falls inside its `name="value"` span. -/
def locateAttrLoop (tagText : List Char) (tagStart offset : Int) :
    List XMLAttr → Option (XMLAttr × Bool)
  | [] => none
  | attr :: rest =>
    let attrName :=
      if attr.Space ≠ [] then
        match lookupA (namespacePrefixes tagText) attr.Space with
        | some pfx => pfx ++ ':' :: attr.Local
        | none => attr.Local
      else attr.Local
    match findAttributeInTag tagText attrName attr.Value with
    | none => locateAttrLoop tagText tagStart offset rest
    | some attrPos =>
      let absStart : Int := tagStart + (attrPos : Int)
      let attrLen : Int := ((attrName.length + 1 + 1 + attr.Value.length + 1 : Nat) : Int)
      let absEnd : Int := absStart + attrLen
      if absStart ≤ offset ∧ offset < absEnd then
        let valueStart : Int := absStart + (attrName.length : Int) + 2
        some (attr, decide (valueStart ≤ offset ∧
          offset ≤ valueStart + (attr.Value.length : Int)))
      else locateAttrLoop tagText tagStart offset rest

/-- `locateAttribute` from the source: whether `offset` is within an
attribute of the tag spanning `[tagStart, tagEnd]` of `content`. -/
def locateAttribute (content : List Char) (tagStart tagEnd offset : Int)
    (node : XMLNode) : Option (XMLAttr × Bool) :=
  let tagEnd2 : Int :=
    if (content.length : Int) ≤ tagEnd then (content.length : Int) - 1 else tagEnd
  let tagText := (content.drop tagStart.toNat).take (tagEnd2 + 1 - tagStart).toNat
  locateAttrLoop tagText tagStart offset node.Attrs

mutual

/-- `findDeepestNode` from the source: deepest node whose span covers the
offset (the source returns nil on both fall-through branches; the
`#document` test is kept as written). -/
def findDeepestNode : XMLNode → List Char → Int → Option XMLNode
  | .mk _ locl _ children _ _ _ _, content, offset =>
    match findDeepestChild children content offset with
    | some n => some n
    | none => if locl = "#document".data then none else none

/-- Child loop of `findDeepestNode`: skip children starting past the offset,
prefer a deeper match, else the child itself when its span covers the
offset. -/
def findDeepestChild : List XMLNode → List Char → Int → Option XMLNode
  | [], _, _ => none
  | child :: rest, content, offset =>
    if offset < child.Offset then findDeepestChild rest content offset
    else
      match findDeepestNode child content offset with
      | some deeper => some deeper
      | none =>
        if child.Offset ≤ offset ∧
            offset ≤ findElementEnd content child.Offset.toNat child.Local then
          some child
        else findDeepestChild rest content offset

end

/-- `LocateResult` from the source. -/
structure LocateResult where
  Node : XMLNode
  Attr : Option XMLAttr
  InValue : Bool

/-- `LocateAtPosition` from the source: which node/attribute the cursor at
the given byte offset is on; `none` for out-of-range offsets. -/
def LocateAtPosition (root : XMLNode) (content : List Char) (offset : Int) :
    Option LocateResult :=
  if offset < 0 ∨ (content.length : Int) ≤ offset then none
  else
    match findDeepestNode root content offset with
    | none => none
    | some node =>
      let tagStart := node.Offset
      let tagEnd := findStartTagEnd content tagStart.toNat
      if tagStart ≤ offset ∧ offset ≤ tagEnd then
        match locateAttribute content tagStart tagEnd offset node with
        | some (attr, inValue) => some ⟨node, some attr, inValue⟩
        | none => some ⟨node, none, false⟩
      else some ⟨node, none, false⟩

end CursorLocator

section ClaimC5

/-- The C5 document, a single self-closing tag. -/
def c5tag : List Char :=
  "<x xmlns:a=\"urn:a\" xmlns:b=\"urn:b\" a:id=\"v\" b:id=\"v\"/>".data

/-- Modelled from the spec (§3, Parsed Document Tree built by the external
tokenizer): the element node for `c5tag` — local name `x` with the four
attributes in source order, the `xmlns:` declarations carrying namespace
`xmlns`, and the two `id` attributes resolved to their declared namespaces. -/
def c5node : XMLNode :=
  .mk [] "x".data
    [⟨"xmlns".data, "a".data, "urn:a".data⟩,
     ⟨"xmlns".data, "b".data, "urn:b".data⟩,
     ⟨"urn:a".data, "id".data, "v".data⟩,
     ⟨"urn:b".data, "id".data, "v".data⟩]
    [] [] 0 0 0

/-- C5.  Attribute disambiguation: in `c5tag` the prefix `b` is recovered for
namespace `urn:b`, the search for `b:id` with value `v` lands on byte 44 (the
`b:id="v"` occurrence) — not on byte 37, the first textual `id="v"` match —
and the full `locateAttribute` pipeline at offset 44 reports the
`urn:b`-namespaced attribute.  In general a candidate name match counts only
if it is followed by optional whitespace, `=`, optional whitespace, and a
quoted value exactly equal to the known value. -/
theorem attributeDisambiguation :
    lookupA (namespacePrefixes c5tag) "urn:b".data = some "b".data
    ∧ findAttributeInTag c5tag "b:id".data "v".data = some 44
    ∧ strIndex c5tag ("id=".data ++ '"' :: ('v' :: ['"'])) = some 37
    ∧ (44 : Nat) ≠ 37
    ∧ locateAttribute c5tag 0 53 44 c5node =
        some (⟨"urn:b".data, "id".data, "v".data⟩, false)
    ∧ ∀ (tagText name value : List Char) (i : Nat),
        findAttributeInTag tagText name value = some i →
          isPre name (tagText.drop i) = true ∧
            SpecFollowedByEqValue (tagText.drop (i + name.length)) value :=
  ⟨by decide, by decide, by decide, by decide, by decide,
    fun tagText name value i h => findAttributeInTag_sound tagText name value i h⟩

/-- Witness for C5's universally quantified clause at the `b:id` hit. -/
theorem attributeDisambiguation_witness :
    isPre "b:id".data (c5tag.drop 44) = true ∧
      SpecFollowedByEqValue (c5tag.drop (44 + ("b:id".data).length)) "v".data :=
  attributeDisambiguation.2.2.2.2.2 c5tag "b:id".data "v".data 44 (by decide)

end ClaimC5

section ClaimC4

/-- The C4 document. -/
def c4doc : List Char := "<root><child>text</child></root>".data

/-- Modelled from the spec (§3): the subtree for `<child>text</child>`, whose
opening `<` is at byte offset 6 of `c4doc`. -/
def c4child : XMLNode := .mk [] "child".data [] [] "text".data 6 0 6

/-- Modelled from the spec (§3): the `root` element at byte offset 0. -/
def c4root : XMLNode := .mk [] "root".data [] [c4child] [] 0 0 0

/-- Modelled from the spec (§3): the `#document` node the parser roots every
tree in. -/
def c4tree : XMLNode := .mk [] "#document".data [] [c4root] [] 0 0 0

/-- C4.  Cursor containment: in `<root><child>text</child></root>`, the
offset of the `c` of `<child` (byte 7) resolves to the element `child` (with
no attribute), every offset inside `text` (bytes 13–16) also resolves to
`child`, and every offset past the document end (`≥ 32`), as well as every
negative offset, yields not-found. -/
theorem cursorContainment :
    ((LocateAtPosition c4tree c4doc 7).map (fun r => r.Node.Local) = some "child".data
      ∧ (LocateAtPosition c4tree c4doc 7).map (fun r => r.Attr) = some none)
    ∧ (∀ o : Int, 13 ≤ o → o ≤ 16 →
        (LocateAtPosition c4tree c4doc o).map (fun r => r.Node.Local) = some "child".data)
    ∧ (∀ o : Int, (c4doc.length : Int) ≤ o → LocateAtPosition c4tree c4doc o = none)
    ∧ (∀ o : Int, o < 0 → LocateAtPosition c4tree c4doc o = none) := by
  refine ⟨⟨by decide, by decide⟩, ?_, ?_, ?_⟩
  · intro o h1 h2
    have ho : o = 13 ∨ o = 14 ∨ o = 15 ∨ o = 16 := by omega
    rcases ho with rfl | rfl | rfl | rfl <;> decide
  · intro o h
    rw [LocateAtPosition, if_pos (Or.inr h)]
  · intro o h
    rw [LocateAtPosition, if_pos (Or.inl h)]

/-- Witness for C4's quantified clauses at concrete offsets. -/
theorem cursorContainment_witness :
    (LocateAtPosition c4tree c4doc 13).map (fun r => r.Node.Local) = some "child".data ∧
      LocateAtPosition c4tree c4doc 32 = none ∧
      LocateAtPosition c4tree c4doc (-1) = none :=
  ⟨cursorContainment.2.1 13 (by decide) (by decide),
    cursorContainment.2.2.1 32 (by decide),
    cursorContainment.2.2.2 (-1) (by decide)⟩

end ClaimC4

section ParserRecovery

/-- LSP range, from `Range` in the source. -/
structure Range where
  Start : Position
  End : Position
deriving DecidableEq, Repr

/-- Severity constants from the source (LSP DiagnosticSeverity values). -/
def SeverityError : Nat := 1

def SeverityWarning : Nat := 2

def SeverityInfo : Nat := 3

/-- `Diagnostic` from the source. -/
structure Diagnostic where
  Code : String
  Severity : Nat
  Message : String
  Range : Range
  Source : String
deriving DecidableEq, Repr

/-- Tokens delivered by the external tokenizer (`encoding/xml`), as consumed
by the source's `Parse` switch; tokens it ignores (comments, directives,
processing instructions) are `other`. -/
inductive XMLToken where
  | startElement (space locl : List Char) (attrs : List XMLAttr)
  | endElement
  | charData (text : List Char)
  | other

/-- One delivered token together with the decoder input offset read just
before it. -/
structure XMLTokenEntry where
  offset : Int
  tok : XMLToken

/-- Modelled from the spec: the external tokenizer is an arbitrary stream of
tokens ending either in clean EOF (`terminal = none`) or in one
ill-formedness error carrying the offset and message Go's decoder reports.
`Parse` below consumes such a stream exactly as the source's token loop
does. -/
structure TokenStream where
  tokens : List XMLTokenEntry
  terminal : Option (Int × String)

/-- Append a completed child, preserving document order. -/
def XMLNode.appendChild : XMLNode → XMLNode → XMLNode
  | .mk s l a ch cd off li co, child => .mk s l a (ch ++ [child]) cd off li co

/-- Accumulate character data on a node (`current.CharData += text`). -/
def XMLNode.appendText : XMLNode → List Char → XMLNode
  | .mk s l a ch cd off li co, text => .mk s l a ch (cd ++ text) off li co

/-- One iteration of the source's token loop over the stack of open
elements (head = top).  The source appends the child into the parent at
`StartElement` time through a pointer; attaching it when it is popped (and
at end-of-stream below) yields the identical final tree, since all of the
child's mutations happen before the tree is returned. -/
def parseStep (content : List Char) (stack : List XMLNode) (e : XMLTokenEntry) :
    List XMLNode :=
  match e.tok with
  | .startElement space locl attrs =>
    let pos := ByteOffsetToPosition content e.offset
    XMLNode.mk space locl attrs [] [] e.offset pos.line pos.character :: stack
  | .endElement =>
    match stack with
    | t :: p :: rest => p.appendChild t :: rest
    | _ => stack
  | .charData text =>
    match stack with
    | t :: rest => t.appendText text :: rest
    | [] => stack
  | .other => stack

/-- Attach every still-open element into its parent, returning the bottom of
the stack (the `#document` root the source returns). -/
def collapseStack : XMLNode → List XMLNode → XMLNode
  | t, [] => t
  | t, p :: rest => collapseStack (p.appendChild t) rest

/-- The diagnostic built by `Parse` on a tokenizer error:
`NewDiag(content, offset, "epub-xml").Error("XML well-formedness error: " + msg).Build()`. -/
def mkParseDiag (content : List Char) (offset : Int) (msg : String) : Diagnostic :=
  { Code := ""
    Severity := SeverityError
    Message := "XML well-formedness error: " ++ msg
    Range := ⟨ByteOffsetToPosition content offset, ByteOffsetToPosition content offset⟩
    Source := "epub-xml" }

/-- `Parse` from the source, over the abstract token stream: builds the tree
under a `#document` root and reports the terminal error, if any, as exactly
one diagnostic. -/
def Parse (content : List Char) (ts : TokenStream) : XMLNode × List Diagnostic :=
  let root := XMLNode.mk [] "#document".data [] [] [] 0 0 0
  let finalStack := ts.tokens.foldl (parseStep content) [root]
  let tree :=
    match finalStack with
    | [] => root
    | t :: rest => collapseStack t rest
  let diags :=
    match ts.terminal with
    | none => []
    | some (off, msg) => [mkParseDiag content off msg]
  (tree, diags)

/-- Value of the first attribute with the given local name and empty
namespace (`XMLNode.Attr` from the source). -/
def attrLookup : List XMLAttr → List Char → List Char
  | [], _ => []
  | a :: rest, locl => if a.Local = locl ∧ a.Space = [] then a.Value else attrLookup rest locl

def XMLNode.Attr (n : XMLNode) (locl : List Char) : List Char :=
  attrLookup n.Attrs locl

mutual

/-- `FindFirst` from the source: first descendant with the local name. -/
def XMLNode.FindFirst : XMLNode → List Char → Option XMLNode
  | .mk _ _ _ children _ _ _ _, locl => XMLNode.findFirstList children locl

def XMLNode.findFirstList : List XMLNode → List Char → Option XMLNode
  | [], _ => none
  | child :: rest, locl =>
    if child.Local = locl then some child
    else
      match XMLNode.FindFirst child locl with
      | some found => some found
      | none => XMLNode.findFirstList rest locl

end

mutual

/-- `FindAllNS` from the source: all descendants with the namespace and
local name, in document order. -/
def XMLNode.FindAllNS : XMLNode → List Char → List Char → List XMLNode
  | .mk _ _ _ children _ _ _ _, space, locl => XMLNode.findAllNSList children space locl

def XMLNode.findAllNSList : List XMLNode → List Char → List Char → List XMLNode
  | [], _, _ => []
  | child :: rest, space, locl =>
    (if child.Local = locl ∧ child.Space = space then [child] else []) ++
      XMLNode.FindAllNS child space locl ++ XMLNode.findAllNSList rest space locl

end

/-- `ManifestItem` from the validator package. -/
structure ManifestItem where
  ID : List Char
  Href : List Char
  MediaType : List Char
deriving DecidableEq, Repr

/-- `SpineItem` from the validator package. -/
structure SpineItem where
  IDRef : List Char
  Linear : Bool
deriving DecidableEq, Repr

/-- `MetadataInfo` from the validator package. -/
structure MetadataInfo where
  AccessModes : List (List Char)
  AccessModeSufficient : List (List Char)
  AccessibilityFeatures : List (List Char)
  AccessibilityHazards : List (List Char)
  AccessibilitySummary : List Char
  HasDCSource : Bool
  HasTitle : Bool
  HasLanguage : Bool
deriving DecidableEq, Repr

/-- The Go zero value of `MetadataInfo`. -/
def MetadataInfo.empty : MetadataInfo := ⟨[], [], [], [], [], false, false, false⟩

/-- `ManifestInfo` from the validator package. -/
structure ManifestInfo where
  Items : List ManifestItem
  Spine : List SpineItem
  Metadata : MetadataInfo
deriving DecidableEq, Repr

/-- The Dublin Core namespace constant `dcNS` from the source. -/
def dcNS : List Char := "http://purl.org/dc/elements/1.1/".data

/-- Whitespace trimmed by Go's `strings.TrimSpace` (ASCII range; the claims
use no non-ASCII whitespace). -/
def isGoSpace (c : Char) : Bool :=
  c = ' ' || c = '\t' || c = '\n' || c = '\r' || c = Char.ofNat 11 || c = Char.ofNat 12

def trimSpace (l : List Char) : List Char :=
  ((l.dropWhile isGoSpace).reverse.dropWhile isGoSpace).reverse

/-- The `<meta property=...>` loop of `parseMetadataInfo`. -/
def metaLoop : List XMLNode → MetadataInfo → MetadataInfo
  | [], meta => meta
  | child :: rest, meta =>
    if child.Local = "meta".data then
      if child.Attr "property".data = [] then metaLoop rest meta
      else
        let value := trimSpace child.CharData
        let property := child.Attr "property".data
        let meta2 :=
          if property = "schema:accessMode".data then
            { meta with AccessModes := meta.AccessModes ++ [value] }
          else if property = "schema:accessModeSufficient".data then
            { meta with AccessModeSufficient := meta.AccessModeSufficient ++ [value] }
          else if property = "schema:accessibilityFeature".data then
            { meta with AccessibilityFeatures := meta.AccessibilityFeatures ++ [value] }
          else if property = "schema:accessibilityHazard".data then
            { meta with AccessibilityHazards := meta.AccessibilityHazards ++ [value] }
          else if property = "schema:accessibilitySummary".data then
            { meta with AccessibilitySummary := value }
          else meta
        metaLoop rest meta2
    else metaLoop rest meta

/-- `parseMetadataInfo` from the source. -/
def parseMetadataInfo (metadata : XMLNode) : MetadataInfo :=
  let m0 : MetadataInfo :=
    { MetadataInfo.empty with
      HasTitle := decide ((metadata.FindAllNS dcNS "title".data).length > 0)
      HasLanguage := decide ((metadata.FindAllNS dcNS "language".data).length > 0)
      HasDCSource := decide ((metadata.FindAllNS dcNS "source".data).length > 0) }
  metaLoop metadata.Children m0

/-- The manifest `<item>` loop of `ParseManifest`. -/
def itemsLoop : List XMLNode → List ManifestItem
  | [] => []
  | item :: rest =>
    if item.Local = "item".data then
      ⟨item.Attr "id".data, item.Attr "href".data, item.Attr "media-type".data⟩ ::
        itemsLoop rest
    else itemsLoop rest

/-- The spine `<itemref>` loop of `ParseManifest`. -/
def spineLoop : List XMLNode → List SpineItem
  | [] => []
  | itemref :: rest =>
    if itemref.Local = "itemref".data then
      ⟨itemref.Attr "idref".data, decide (itemref.Attr "linear".data ≠ "no".data)⟩ ::
        spineLoop rest
    else spineLoop rest

/-- `ParseManifest` from the source: `none` when parsing produced any
diagnostic or when no `package` element exists; otherwise the manifest,
spine and metadata extraction. -/
def ParseManifest (content : List Char) (ts : TokenStream) : Option ManifestInfo :=
  let parsed := Parse content ts
  if parsed.2.length > 0 then none
  else
    match parsed.1.FindFirst "package".data with
    | none => none
    | some pkg =>
      let items :=
        match pkg.FindFirst "manifest".data with
        | some manifest => itemsLoop manifest.Children
        | none => []
      let spine :=
        match pkg.FindFirst "spine".data with
        | some spineNode => spineLoop spineNode.Children
        | none => []
      let metadata :=
        match pkg.FindFirst "metadata".data with
        | some metadataNode => parseMetadataInfo metadataNode
        | none => MetadataInfo.empty
      some ⟨items, spine, metadata⟩

theorem appendChild_local (p c : XMLNode) : (p.appendChild c).Local = p.Local := by
  cases p
  rfl

theorem appendText_local (p : XMLNode) (t : List Char) :
    (p.appendText t).Local = p.Local := by
  cases p
  rfl

theorem collapseStack_append : ∀ (front : List XMLNode) (t b : XMLNode),
    (collapseStack t (front ++ [b])).Local = b.Local := by
  intro front
  induction front with
  | nil =>
    intro t b
    exact appendChild_local b t
  | cons p front ih =>
    intro t b
    exact ih (p.appendChild t) b

theorem parseStep_bottom (content : List Char) (e : XMLTokenEntry)
    (front : List XMLNode) (b : XMLNode) :
    ∃ front' b', parseStep content (front ++ [b]) e = front' ++ [b'] ∧
      b'.Local = b.Local := by
  obtain ⟨off, tok⟩ := e
  cases tok with
  | startElement space locl attrs =>
    exact ⟨XMLNode.mk space locl attrs [] [] off
      (ByteOffsetToPosition content off).line
      (ByteOffsetToPosition content off).character :: front, b, rfl, rfl⟩
  | endElement =>
    cases front with
    | nil => exact ⟨[], b, rfl, rfl⟩
    | cons f1 front2 =>
      cases front2 with
      | nil => exact ⟨[], b.appendChild f1, rfl, appendChild_local b f1⟩
      | cons f2 front3 => exact ⟨f2.appendChild f1 :: front3, b, rfl, rfl⟩
  | charData text =>
    cases front with
    | nil => exact ⟨[], b.appendText text, rfl, appendText_local b text⟩
    | cons f1 front2 => exact ⟨f1.appendText text :: front2, b, rfl, rfl⟩
  | other => exact ⟨front, b, rfl, rfl⟩

theorem foldl_parseStep_bottom (content : List Char) :
    ∀ (tokens : List XMLTokenEntry) (front : List XMLNode) (b : XMLNode),
      ∃ front' b', tokens.foldl (parseStep content) (front ++ [b]) = front' ++ [b'] ∧
        b'.Local = b.Local := by
  intro tokens
  induction tokens with
  | nil =>
    intro front b
    exact ⟨front, b, rfl, rfl⟩
  | cons e rest ih =>
    intro front b
    obtain ⟨f1, b1, h1, h2⟩ := parseStep_bottom content e front b
    obtain ⟨f2, b2, h3, h4⟩ := ih f1 b1
    exact ⟨f2, b2, by rw [List.foldl_cons, h1, h3], by rw [h4, h2]⟩

/-- C9.  Malformed-document recovery: for every content and every token
stream the external tokenizer can deliver, `Parse` returns a tree (always
rooted at `#document` — never nil) and reports at most one well-formedness
diagnostic — exactly one when the stream ends in an error, none on clean
EOF — and a document whose tokenization fails contributes nothing to the
cross-file Manifest Info: `ParseManifest` returns `none`. -/
theorem malformedRecovery (content : List Char) (ts : TokenStream) :
    (Parse content ts).1.Local = "#document".data
    ∧ (Parse content ts).2.length ≤ 1
    ∧ ((Parse content ts).2 = [] ↔ ts.terminal = none)
    ∧ (ts.terminal ≠ none → ParseManifest content ts = none) := by
  have hroot : (Parse content ts).1.Local = "#document".data := by
    obtain ⟨front', b', heq, hloc⟩ := foldl_parseStep_bottom content ts.tokens []
      (XMLNode.mk [] "#document".data [] [] [] 0 0 0)
    simp only [List.nil_append] at heq
    have hParse1 : (Parse content ts).1 =
        match ts.tokens.foldl (parseStep content)
            [XMLNode.mk [] "#document".data [] [] [] 0 0 0] with
        | [] => XMLNode.mk [] "#document".data [] [] [] 0 0 0
        | t :: rest => collapseStack t rest := rfl
    rw [hParse1, heq]
    cases front' with
    | nil => exact hloc
    | cons f fs => exact (collapseStack_append fs f b').trans hloc
  refine ⟨hroot, ?_, ?_, ?_⟩
  · rw [Parse]
    cases ts.terminal with
    | none => simp
    | some p => simp
  · rw [Parse]
    cases htm : ts.terminal with
    | none => simp
    | some p => simp
  · intro hterm
    rw [ParseManifest]
    have hd : (Parse content ts).2.length > 0 := by
      rw [Parse]
      cases htm : ts.terminal with
      | none => exact absurd htm hterm
      | some p => simp
    rw [if_pos hd]

/-- Witness for C9 at a stream that ends in a tokenizer error. -/
theorem malformedRecovery_witness :
    ParseManifest [] ⟨[], some (0, "unexpected EOF")⟩ = none :=
  (malformedRecovery [] ⟨[], some (0, "unexpected EOF")⟩).2.2.2 (by simp)

end ParserRecovery

section ServerModel

/-- `FileType` from the source, in `iota` order. -/
inductive FileType where
  | unknown
  | opf
  | xhtml
  | nav
  | css
  | ncx
deriving DecidableEq, Repr

/-- `isNavDocument` from the source: the content contains
`epub:type="toc"` or `epub:type='toc'`. -/
def isNavDocument (content : List Char) : Bool :=
  (strIndex content ("epub:type=".data ++ '"' :: ("toc".data ++ ['"']))).isSome ||
    (strIndex content ("epub:type=".data ++ squote :: ("toc".data ++ [squote]))).isSome

/-- Go `filepath.Ext` (unix separator): the suffix from the final dot of the
final path element, empty when there is none. -/
def pathExt (uri : String) : List Char :=
  let rev := uri.data.reverse.takeWhile (fun c => c ≠ '/')
  match chIndex rev '.' with
  | none => []
  | some i => '.' :: (rev.take i).reverse

/-- `DetectFileType` from the source (Go lowercases with the full Unicode
tables; `Char.toLower` agrees on the ASCII range all extensions live in). -/
def DetectFileType (uri : String) (content : List Char) : FileType :=
  let ext := (pathExt uri).map Char.toLower
  if ext = ".opf".data then FileType.opf
  else if ext = ".css".data then FileType.css
  else if ext = ".ncx".data then FileType.ncx
  else if ext = ".xhtml".data ∨ ext = ".html".data then
    (if isNavDocument content then FileType.nav else FileType.xhtml)
  else FileType.unknown

/-- `TargetFileExtensions` from the source. -/
def TargetFileExtensions : List (List Char) :=
  ["opf".data, "xhtml".data, "html".data, "css".data, "ncx".data]

/-- `hasTargetExtension` from the source. -/
def hasTargetExtension (uri : String) : Bool :=
  TargetFileExtensions.any fun ext =>
    isPre ('.' :: ext).reverse (uri.data.map Char.toLower).reverse

/-- `WorkspaceContext` from the validator package (maps modelled as
association lists). -/
structure WorkspaceContext where
  RootPath : String
  Files : List (String × List Char)
  FileTypes : List (String × FileType)
  Manifest : Option ManifestInfo
  AccessibilitySeverity : Int
deriving DecidableEq

/-- The server's long-lived state: `workspaceStore` (RawFiles, FileTypes,
Diagnostics), the pending-edits map `textFromClient`, and the buffered count
of `textChangedNotification` signals. -/
structure ServerState where
  rootPath : String
  pending : List (String × List Char)
  signal : Nat
  rawFiles : List (String × List Char)
  fileTypes : List (String × FileType)
  diagnostics : List (String × List Diagnostic)
deriving DecidableEq

/-- The state right after the root path arrives: empty maps, no signal. -/
def initState (rootPath : String) : ServerState :=
  ⟨rootPath, [], 0, [], [], []⟩

/-- `insertTextDocumentToDiagnostic` from the source: record the edit under
the lock and post a signal only when the slot is empty. -/
def insertTextDocumentToDiagnostic (s : ServerState) (uri : String)
    (content : List Char) : ServerState :=
  if uri = "" then s
  else
    { s with
      pending := upsert s.pending uri content
      signal := if s.signal = 0 then s.signal + 1 else s.signal }

/-- Record a sequence of edit notifications. -/
def applyEdits (s : ServerState) (es : List (String × List Char)) : ServerState :=
  es.foldl (fun st e => insertTextDocumentToDiagnostic st e.1 e.2) s

/-- The content carried by the last edit of `uri` in `es`, if any. -/
def lastEdit (es : List (String × List Char)) (uri : String) : Option (List Char) :=
  ((es.filter (fun e => e.1 = uri)).getLast?).map Prod.snd

/-- The local batch `cloneTextFromClient` the consuming loop drains: each
pending entry with a supported extension, latest content per URI. -/
def drainClone (s : ServerState) : List (String × List Char) :=
  s.pending.foldl
    (fun cl p => if hasTargetExtension p.1 then upsert cl p.1 p.2 else cl) []

/-- `storage.RawFiles` after the same loop stored the batch contents. -/
def drainRaw (s : ServerState) : List (String × List Char) :=
  s.pending.foldl
    (fun rf p => if hasTargetExtension p.1 then upsert rf p.1 p.2 else rf) s.rawFiles

/-- Whether the detect loop saw a manifest-kind (OPF) document in the batch. -/
def drainOpfChanged (s : ServerState) : Bool :=
  (drainClone s).any fun p => DetectFileType p.1 p.2 = FileType.opf

/-- `storage.FileTypes` after the detect loop over the batch. -/
def drainFT1 (s : ServerState) : List (String × FileType) :=
  (drainClone s).foldl (fun ft p => upsert ft p.1 (DetectFileType p.1 p.2)) s.fileTypes

/-- A Go map read of `storage.FileTypes[uri]` (zero value `Unknown`). -/
def lookupFT (ft : List (String × FileType)) (uri : String) : FileType :=
  (lookupA ft uri).getD FileType.unknown

/-- The manifest scan over `storage.RawFiles`: the first OPF-typed file whose
parse succeeds (Go iterates its map in unspecified order; the model iterates
in list order, one of the admitted orders). -/
def firstManifest (pm : List Char → Option ManifestInfo)
    (ft : List (String × FileType)) : List (String × List Char) → Option ManifestInfo
  | [] => none
  | (u, c) :: rest =>
    if lookupFT ft u = FileType.opf then
      match pm c with
      | some m => some m
      | none => firstManifest pm ft rest
    else firstManifest pm ft rest

/-- `filesToValidate`: the whole store when the batch touched an OPF file,
else the batch alone. -/
def drainValidated (s : ServerState) : List (String × List Char) :=
  if drainOpfChanged s then drainRaw s else drainClone s

/-- `storage.FileTypes` after the unknown-type resolution loop over
`filesToValidate`. -/
def drainFT2 (s : ServerState) : List (String × FileType) :=
  (drainValidated s).foldl
    (fun ft p =>
      if lookupFT ft p.1 = FileType.unknown then upsert ft p.1 (DetectFileType p.1 p.2)
      else ft)
    (drainFT1 s)

/-- The `WorkspaceContext` the workers share.  Go stores the live maps in the
context by reference, so the workers observe the dispatch-time values: the
updated store, the fully resolved types, and the manifest chosen during the
scan (which ran against the post-detect types). -/
def drainCtx (pm : List Char → Option ManifestInfo) (s : ServerState) :
    WorkspaceContext :=
  ⟨s.rootPath, drainRaw s, drainFT2 s, firstManifest pm (drainFT1 s) (drainRaw s), 0⟩

/-- The per-file validation results of one batch, in batch order; each URI is
validated exactly once per batch. -/
def drainResults
    (validate : String → List Char → FileType → WorkspaceContext → List Diagnostic)
    (pm : List Char → Option ManifestInfo) (s : ServerState) :
    List (String × List Diagnostic) :=
  (drainValidated s).map fun p =>
    (p.1, validate p.1 p.2 (lookupFT (drainFT2 s) p.1) (drainCtx pm s))

/-- One full iteration of `processDiagnosticNotification`'s consuming loop
after a signal: skip when nothing is pending; otherwise drain the whole
pending map, clear it and the buffered signals, detect kinds, widen on a
manifest change, build the context, validate every file of the batch and
store each result by URI.  Returns the drained batch and the validated file
list (when a validation pass ran) together with the successor state. -/
def drainStep
    (validate : String → List Char → FileType → WorkspaceContext → List Diagnostic)
    (pm : List Char → Option ManifestInfo) (s : ServerState) :
    Option (List (String × List Char) × List (String × List Char)) × ServerState :=
  if s.pending = [] then (none, s)
  else
    let s1 : ServerState :=
      { s with pending := [], signal := 0, rawFiles := drainRaw s }
    if drainClone s = [] then (none, s1)
    else
      (some (drainClone s, drainValidated s),
        { s1 with
          fileTypes := drainFT2 s
          diagnostics :=
            (drainResults validate pm s).foldl (fun d r => upsert d r.1 r.2)
              s.diagnostics })

end ServerModel

section MapLemmas

variable {κ : Type} [DecidableEq κ] {α : Type} {β : Type}

theorem upsert_ne_nil : ∀ (l : List (κ × α)) (k : κ) (v : α), upsert l k v ≠ []
  | [], k, v => by simp [upsert]
  | (k', v') :: t, k, v => by
    rw [upsert]
    split <;> simp

theorem lookupA_upsert_self : ∀ (l : List (κ × α)) (k : κ) (v : α),
    lookupA (upsert l k v) k = some v
  | [], k, v => by simp [upsert, lookupA]
  | (k', v') :: t, k, v => by
    rw [upsert]
    by_cases h : k' = k
    · rw [if_pos h, lookupA, if_pos rfl]
    · rw [if_neg h, lookupA, if_neg h]
      exact lookupA_upsert_self t k v

theorem lookupA_upsert_ne : ∀ (l : List (κ × α)) (k k2 : κ) (v : α), k ≠ k2 →
    lookupA (upsert l k v) k2 = lookupA l k2
  | [], k, k2, v, h => by simp [upsert, lookupA, h]
  | (k', v') :: t, k, k2, v, h => by
    rw [upsert]
    by_cases hk : k' = k
    · subst hk
      rw [if_pos rfl, lookupA, if_neg h, lookupA, if_neg h]
    · rw [if_neg hk, lookupA, lookupA]
      by_cases hk2 : k' = k2
      · rw [if_pos hk2, if_pos hk2]
      · rw [if_neg hk2, if_neg hk2]
        exact lookupA_upsert_ne t k k2 v h

theorem lookupA_eq_none : ∀ (l : List (κ × α)) (k : κ),
    k ∉ l.map Prod.fst → lookupA l k = none
  | [], k, _ => rfl
  | (k', v') :: t, k, h => by
    rw [List.map_cons, List.mem_cons] at h
    push_neg at h
    rw [lookupA, if_neg (fun hc => h.1 hc.symm)]
    exact lookupA_eq_none t k h.2

theorem upsert_keys : ∀ (l : List (κ × α)) (k : κ) (v : α),
    (upsert l k v).map Prod.fst =
      if k ∈ l.map Prod.fst then l.map Prod.fst else l.map Prod.fst ++ [k]
  | [], k, v => by simp [upsert]
  | (k', v') :: t, k, v => by
    rw [upsert]
    by_cases h : k' = k
    · subst h
      simp
    · rw [if_neg h]
      have hne : ¬(k = k') := fun hc => h hc.symm
      simp only [List.map_cons, upsert_keys t k v, List.mem_cons]
      by_cases hm : k ∈ t.map Prod.fst
      · simp [hm]
      · simp [hm, hne]

theorem upsert_keys_nodup (l : List (κ × α)) (k : κ) (v : α)
    (h : (l.map Prod.fst).Nodup) : ((upsert l k v).map Prod.fst).Nodup := by
  rw [upsert_keys]
  split
  · exact h
  · next hm =>
    rw [List.nodup_append]
    exact ⟨h, List.nodup_singleton k, by simpa using hm⟩

theorem foldl_upsert_cond_eq_filter (p : κ → Bool) :
    ∀ (l acc : List (κ × α)),
      l.foldl (fun cl x => if p x.1 then upsert cl x.1 x.2 else cl) acc =
        (l.filter (fun x => p x.1)).foldl (fun cl x => upsert cl x.1 x.2) acc
  | [], acc => rfl
  | x :: t, acc => by
    rw [List.foldl_cons, List.filter_cons]
    by_cases h : p x.1
    · rw [if_pos h, if_pos (by simpa using h), List.foldl_cons]
      exact foldl_upsert_cond_eq_filter p t _
    · rw [if_neg h, if_neg (by simpa using h)]
      exact foldl_upsert_cond_eq_filter p t acc

theorem lookupA_filter (p : κ → Bool) :
    ∀ (l : List (κ × α)) (k : κ),
      lookupA (l.filter (fun x => p x.1)) k = if p k then lookupA l k else none
  | [], k => by simp [lookupA]
  | (k', v') :: t, k => by
    rw [List.filter_cons]
    by_cases h : p k'
    · rw [if_pos (by simpa using h), lookupA]
      by_cases hk : k' = k
      · subst hk
        rw [if_pos rfl, lookupA, if_pos rfl, if_pos h]
      · rw [if_neg hk, lookupA, if_neg hk, lookupA_filter p t k]
    · rw [if_neg (by simpa using h), lookupA_filter p t k]
      by_cases hk : k' = k
      · have hf : ¬(p k = true) := by
          rw [← hk]
          exact h
        rw [if_neg hf, if_neg hf]
      · have hcons : lookupA ((k', v') :: t) k = lookupA t k := by
          rw [lookupA, if_neg hk]
        rw [hcons]

theorem lookupA_foldl_upsert :
    ∀ (l acc : List (κ × α)) (k : κ), (l.map Prod.fst).Nodup →
      lookupA (l.foldl (fun d r => upsert d r.1 r.2) acc) k =
        (match lookupA l k with
         | some v => some v
         | none => lookupA acc k)
  | [], acc, k, _ => by simp [lookupA]
  | (k0, v0) :: t, acc, k, hnd => by
    rw [List.foldl_cons]
    have hnd2 : (t.map Prod.fst).Nodup := (List.nodup_cons.mp (by simpa using hnd)).2
    have hk0 : k0 ∉ t.map Prod.fst := (List.nodup_cons.mp (by simpa using hnd)).1
    rw [lookupA_foldl_upsert t _ k hnd2, lookupA]
    by_cases h : k0 = k
    · subst h
      rw [if_pos rfl, lookupA_eq_none t k0 hk0]
      simp [lookupA_upsert_self]
    · rw [if_neg h]
      cases hx : lookupA t k with
      | some v => simp
      | none => simp [lookupA_upsert_ne acc k0 k v0 h]

theorem foldl_upsert_keys_nodup :
    ∀ (l acc : List (κ × α)), (acc.map Prod.fst).Nodup →
      ((l.foldl (fun d r => upsert d r.1 r.2) acc).map Prod.fst).Nodup
  | [], _, h => h
  | x :: t, acc, h => by
    rw [List.foldl_cons]
    exact foldl_upsert_keys_nodup t _ (upsert_keys_nodup acc x.1 x.2 h)

theorem lookupA_perm {l l2 : List (κ × α)} (h : l.Perm l2)
    (hn : (l2.map Prod.fst).Nodup) (k : κ) : lookupA l k = lookupA l2 k := by
  induction h with
  | nil => rfl
  | cons x hperm ih =>
    obtain ⟨xk, xv⟩ := x
    rw [List.map_cons, List.nodup_cons] at hn
    simp only [lookupA]
    by_cases hx : xk = k
    · rw [if_pos hx, if_pos hx]
    · rw [if_neg hx, if_neg hx]
      exact ih hn.2
  | swap x y l =>
    obtain ⟨xk, xv⟩ := x
    obtain ⟨yk, yv⟩ := y
    have h1n : (xk :: yk :: l.map Prod.fst).Nodup := by simpa using hn
    have hxy : xk ≠ yk := by
      have h2 := (List.nodup_cons.mp h1n).1
      simp only [List.mem_cons] at h2
      push_neg at h2
      exact h2.1
    simp only [lookupA]
    by_cases hy : yk = k <;> by_cases hx : xk = k
    · exact absurd (hx.trans hy.symm) hxy
    · simp [hy, hx]
    · simp [hy, hx]
    · simp [hy, hx]
  | trans h1 h2 ih1 ih2 =>
    have hnmid := ((h2.map Prod.fst).nodup_iff).mpr hn
    exact (ih1 hnmid).trans (ih2 hn)

theorem lookupA_map_pair (f : κ → α → β) :
    ∀ (l : List (κ × α)) (k : κ),
      lookupA (l.map (fun p => (p.1, f p.1 p.2))) k = (lookupA l k).map (f k)
  | [], k => rfl
  | (k', v') :: t, k => by
    rw [List.map_cons, lookupA, lookupA]
    by_cases h : k' = k
    · subst h
      rw [if_pos rfl, if_pos rfl]
      rfl
    · rw [if_neg h, if_neg h]
      exact lookupA_map_pair f t k

end MapLemmas

section ServerTheorems

theorem insert_inv (s : ServerState) (u : String) (c : List Char)
    (h1 : s.signal ≤ 1) (h2 : s.pending = [] → s.signal = 0) :
    (insertTextDocumentToDiagnostic s u c).signal ≤ 1 ∧
      ((insertTextDocumentToDiagnostic s u c).pending = [] →
        (insertTextDocumentToDiagnostic s u c).signal = 0) := by
  rw [insertTextDocumentToDiagnostic]
  by_cases hu : u = ""
  · rw [if_pos hu]
    exact ⟨h1, h2⟩
  · rw [if_neg hu]
    constructor
    · by_cases h0 : s.signal = 0 <;> simp [h0] <;> omega
    · intro hpend
      exact absurd hpend (by simpa using upsert_ne_nil s.pending u c)

theorem applyEdits_inv : ∀ (es : List (String × List Char)) (s : ServerState),
    s.signal ≤ 1 → (s.pending = [] → s.signal = 0) →
    (applyEdits s es).signal ≤ 1 ∧
      ((applyEdits s es).pending = [] → (applyEdits s es).signal = 0)
  | [], _, h1, h2 => ⟨h1, h2⟩
  | e :: es, s, h1, h2 =>
    applyEdits_inv es (insertTextDocumentToDiagnostic s e.1 e.2)
      (insert_inv s e.1 e.2 h1 h2).1 (insert_inv s e.1 e.2 h1 h2).2

theorem applyEdits_pending_nodup :
    ∀ (es : List (String × List Char)) (s : ServerState),
      (s.pending.map Prod.fst).Nodup → ((applyEdits s es).pending.map Prod.fst).Nodup
  | [], _, h => h
  | e :: es, s, h => by
    refine applyEdits_pending_nodup es _ ?_
    simp only [insertTextDocumentToDiagnostic]
    split
    · exact h
    · exact upsert_keys_nodup s.pending e.1 e.2 h

theorem getLast?_cons_eq {γ : Type} (a : γ) (l : List γ) :
    (a :: l).getLast? =
      (match l.getLast? with
       | some x => some x
       | none => some a) := by
  cases l with
  | nil => rfl
  | cons b t =>
    rw [List.getLast?_cons_cons]
    cases hl : (b :: t).getLast? with
    | none =>
      have hne : (b :: t) ≠ [] := by simp
      rw [← List.getLast?_isSome, hl] at hne
      simp at hne
    | some x => rfl

theorem lastEdit_cons (e : String × List Char) (es : List (String × List Char))
    (uri : String) :
    lastEdit (e :: es) uri =
      (match lastEdit es uri with
       | some c => some c
       | none => if e.1 = uri then some e.2 else none) := by
  rw [lastEdit, lastEdit, List.filter_cons]
  by_cases he : e.1 = uri
  · rw [if_pos (by simpa using he), getLast?_cons_eq]
    cases hx : (es.filter fun e2 => e2.1 = uri).getLast? with
    | none => simp [hx, he]
    | some x => simp [hx]
  · rw [if_neg (by simpa using he)]
    cases hx : (es.filter fun e2 => e2.1 = uri).getLast? with
    | none => simp [hx, he]
    | some x => simp [hx]

theorem insert_pending_lookup (s : ServerState) (u : String) (c : List Char)
    (uri : String) :
    lookupA (insertTextDocumentToDiagnostic s u c).pending uri =
      if u = uri ∧ u ≠ "" then some c else lookupA s.pending uri := by
  rw [insertTextDocumentToDiagnostic]
  by_cases hu : u = ""
  · rw [if_pos hu, if_neg (by simp [hu])]
  · rw [if_neg hu]
    show lookupA (upsert s.pending u c) uri =
      if u = uri ∧ u ≠ "" then some c else lookupA s.pending uri
    by_cases heq : u = uri
    · subst heq
      rw [if_pos (show u = u ∧ u ≠ "" from ⟨rfl, hu⟩)]
      exact lookupA_upsert_self s.pending u c
    · rw [if_neg (fun hc => heq hc.1)]
      exact lookupA_upsert_ne s.pending u uri c heq

theorem applyEdits_pending_lookup :
    ∀ (es : List (String × List Char)) (s : ServerState) (uri : String), uri ≠ "" →
      lookupA (applyEdits s es).pending uri =
        (match lastEdit es uri with
         | some c => some c
         | none => lookupA s.pending uri)
  | [], s, uri, _ => by simp [applyEdits, lastEdit]
  | e :: es, s, uri, h => by
    have hstep := insert_pending_lookup s e.1 e.2 uri
    have ih := applyEdits_pending_lookup es (insertTextDocumentToDiagnostic s e.1 e.2)
      uri h
    rw [show applyEdits s (e :: es) =
      applyEdits (insertTextDocumentToDiagnostic s e.1 e.2) es from rfl]
    rw [ih, hstep, lastEdit_cons]
    cases hx : lastEdit es uri with
    | some c => simp
    | none =>
      simp only
      by_cases he : e.1 = uri
      · rw [if_pos ⟨he, fun hc => h (he.symm.trans hc)⟩, if_pos he]
      · rw [if_neg (fun hc => he hc.1), if_neg he]

theorem drainClone_lookup (s : ServerState) (uri : String)
    (hnd : (s.pending.map Prod.fst).Nodup) :
    lookupA (drainClone s) uri =
      if hasTargetExtension uri then lookupA s.pending uri else none := by
  rw [drainClone, foldl_upsert_cond_eq_filter]
  have hnd2 : ((s.pending.filter fun x => hasTargetExtension x.1).map Prod.fst).Nodup :=
    ((List.filter_sublist s.pending).map Prod.fst).nodup hnd
  rw [lookupA_foldl_upsert _ _ _ hnd2, lookupA_filter]
  by_cases h : hasTargetExtension uri
  · rw [if_pos h]
    cases hx : lookupA s.pending uri with
    | some v => simp [hx]
    | none => simp [hx, lookupA]
  · rw [if_neg h]
    simp [lookupA]

theorem drainStep_clears (validate pm) (s : ServerState)
    (hsig : s.pending = [] → s.signal = 0) :
    (drainStep validate pm s).2.pending = [] ∧ (drainStep validate pm s).2.signal = 0 := by
  rw [drainStep]
  split
  · next hp => exact ⟨hp, hsig hp⟩
  · split
    · exact ⟨rfl, rfl⟩
    · exact ⟨rfl, rfl⟩

/-- C2, counterexample.  An edit to `file:///a.txt` is recorded in the
pending-edits map, yet the drained batch is empty: the batch does not map
this edited URI to its latest content, because the drain loop silently drops
URIs without one of the five supported extensions. -/
theorem debounceCollapse_cex :
    (applyEdits (initState "") [("file:///a.txt", "x".data)]).pending =
        [("file:///a.txt", "x".data)]
    ∧ drainClone (applyEdits (initState "") [("file:///a.txt", "x".data)]) = []
    ∧ lookupA (drainClone (applyEdits (initState "") [("file:///a.txt", "x".data)]))
        "file:///a.txt" = none :=
  ⟨by decide, by decide, by decide⟩

/-- C2, amended.  Debounce collapse for supported files: after any sequence
of edit notifications from the post-initialize state, (a) at most one signal
is buffered, so one drain consumes the whole burst; (b) the single drained
batch maps every edited URI carrying a supported extension to that URI's
latest content; (c) URIs without a supported extension are dropped from the
batch; (d) the pending map is empty and the signal slot clear immediately
after the drain; and (e) an edit arriving while the signal slot is full
posts nothing new. -/
theorem debounceCollapse (rootPath : String) (es : List (String × List Char))
    (uri : String)
    (validate : String → List Char → FileType → WorkspaceContext → List Diagnostic)
    (pm : List Char → Option ManifestInfo) :
    (applyEdits (initState rootPath) es).signal ≤ 1
    ∧ (uri ≠ "" → hasTargetExtension uri = true →
        lookupA (drainClone (applyEdits (initState rootPath) es)) uri = lastEdit es uri)
    ∧ (hasTargetExtension uri = false →
        lookupA (drainClone (applyEdits (initState rootPath) es)) uri = none)
    ∧ (drainStep validate pm (applyEdits (initState rootPath) es)).2.pending = []
    ∧ (drainStep validate pm (applyEdits (initState rootPath) es)).2.signal = 0
    ∧ (∀ (s2 : ServerState) (u : String) (c : List Char), s2.signal = 1 →
        (insertTextDocumentToDiagnostic s2 u c).signal = 1) := by
  have hinv := applyEdits_inv es (initState rootPath) (by simp [initState])
    (by simp [initState])
  have hnd := applyEdits_pending_nodup es (initState rootPath) (by simp [initState])
  have hclear := drainStep_clears validate pm (applyEdits (initState rootPath) es) hinv.2
  refine ⟨hinv.1, ?_, ?_, hclear.1, hclear.2, ?_⟩
  · intro h1 h2
    rw [drainClone_lookup _ uri hnd, if_pos h2,
      applyEdits_pending_lookup es _ uri h1]
    cases hx : lastEdit es uri with
    | some c => simp
    | none => simp [initState, lookupA]
  · intro h
    rw [drainClone_lookup _ uri hnd, if_neg (by simp [h])]
  · intro s2 u c h
    rw [insertTextDocumentToDiagnostic]
    split
    · exact h
    · simp [h]

/-- Concrete parameters shared by the model witnesses: a trivial validator
and manifest parser. -/
def wValidate : String → List Char → FileType → WorkspaceContext → List Diagnostic :=
  fun _ _ _ _ => []

def wPm : List Char → Option ManifestInfo := fun _ => none

def wEdits : List (String × List Char) :=
  [("file:///a.css", "x".data), ("file:///a.css", "y".data)]

/-- Witness for C2's amended theorem: two edits to one URI collapse to its
latest content. -/
theorem debounceCollapse_witness :
    lookupA (drainClone (applyEdits (initState "") wEdits)) "file:///a.css" =
      lastEdit wEdits "file:///a.css" :=
  (debounceCollapse "" wEdits "file:///a.css" wValidate wPm).2.1 (by decide) (by decide)

/-- C3.  Manifest widening: a drained batch containing at least one
document detected as manifest-kind (OPF) validates the Store's full current
URI set — the post-drain `RawFiles`, which covers every open document — and
a batch with no manifest-kind change validates exactly the batch itself. -/
theorem manifestWidening (validate pm) (s : ServerState)
    (batch validated : List (String × List Char)) (s2 : ServerState)
    (h : drainStep validate pm s = (some (batch, validated), s2)) :
    ((batch.any fun p => DetectFileType p.1 p.2 = FileType.opf) = true →
      validated = s2.rawFiles)
    ∧ ((batch.any fun p => DetectFileType p.1 p.2 = FileType.opf) = false →
      validated = batch) := by
  rw [drainStep] at h
  split at h
  · exact absurd (Prod.mk.inj h).1 (by simp)
  · split at h
    · exact absurd (Prod.mk.inj h).1 (by simp)
    · obtain ⟨h1, h2⟩ := Prod.mk.inj h
      obtain ⟨hb, hv⟩ := Prod.mk.inj (Option.some.inj h1)
      subst hb
      subst hv
      subst h2
      constructor
      · intro hopf
        rw [drainValidated, drainOpfChanged, if_pos hopf]
      · intro hopf
        rw [drainValidated, drainOpfChanged, if_neg (by simp [hopf])]

/-- A store with one open non-manifest document and a pending OPF edit. -/
def c3state : ServerState :=
  ⟨"", [("file:///pkg.opf", "<package/>".data)], 1,
    [("file:///old.xhtml", "<html/>".data)], [], []⟩

/-- Witness for C3: the OPF edit widens validation to the whole store. -/
theorem manifestWidening_witness :
    drainValidated c3state = (drainStep wValidate wPm c3state).2.rawFiles :=
  (manifestWidening wValidate wPm c3state (drainClone c3state) (drainValidated c3state)
    (drainStep wValidate wPm c3state).2 (by decide)).1 (by decide)

/-- C8.  Per-URI version ordering: for any worker completion order (any
permutation `l` of the batch's results), the diagnostics store after the
batch maps each validated URI to the diagnostics computed from that URI's
drain-time (latest) content, and leaves every other URI's stored diagnostics
untouched; `drainStep` itself produces exactly that store.  Since each URI
appears at most once per batch and the loop finishes a whole batch before
draining the next, results of content version K are stored before version
K+1's ever run — an older version's results can never replace a newer
version's. -/
theorem perUriVersionOrdering (validate pm) (s : ServerState)
    (hr : (s.rawFiles.map Prod.fst).Nodup)
    (l : List (String × List Diagnostic))
    (hl : l.Perm (drainResults validate pm s)) (uri : String) :
    lookupA (l.foldl (fun d r => upsert d r.1 r.2) s.diagnostics) uri =
      (match lookupA (drainValidated s) uri with
       | some c => some (validate uri c (lookupFT (drainFT2 s) uri) (drainCtx pm s))
       | none => lookupA s.diagnostics uri)
    ∧ lookupA (drainStep validate pm s).2.diagnostics uri =
      (match lookupA (drainValidated s) uri with
       | some c => some (validate uri c (lookupFT (drainFT2 s) uri) (drainCtx pm s))
       | none => lookupA s.diagnostics uri) := by
  have hclone : ((drainClone s).map Prod.fst).Nodup := by
    rw [drainClone, foldl_upsert_cond_eq_filter]
    exact foldl_upsert_keys_nodup _ [] (by simp)
  have hraw : ((drainRaw s).map Prod.fst).Nodup := by
    rw [drainRaw, foldl_upsert_cond_eq_filter]
    exact foldl_upsert_keys_nodup _ _ hr
  have hval : ((drainValidated s).map Prod.fst).Nodup := by
    rw [drainValidated]
    split
    · exact hraw
    · exact hclone
  have hreskeys : (drainResults validate pm s).map Prod.fst =
      (drainValidated s).map Prod.fst := by
    rw [drainResults, List.map_map]
    rfl
  have hresnd : ((drainResults validate pm s).map Prod.fst).Nodup := by
    rw [hreskeys]
    exact hval
  have hlnd : (l.map Prod.fst).Nodup := ((hl.map Prod.fst).nodup_iff).mpr hresnd
  have hlook : lookupA (drainResults validate pm s) uri =
      (lookupA (drainValidated s) uri).map
        (fun c => validate uri c (lookupFT (drainFT2 s) uri) (drainCtx pm s)) :=
    lookupA_map_pair
      (fun u c => validate u c (lookupFT (drainFT2 s) u) (drainCtx pm s))
      (drainValidated s) uri
  have hmain : lookupA (l.foldl (fun d r => upsert d r.1 r.2) s.diagnostics) uri =
      (match lookupA (drainValidated s) uri with
       | some c => some (validate uri c (lookupFT (drainFT2 s) uri) (drainCtx pm s))
       | none => lookupA s.diagnostics uri) := by
    rw [lookupA_foldl_upsert l s.diagnostics uri hlnd, lookupA_perm hl hresnd uri, hlook]
    cases hx : lookupA (drainValidated s) uri with
    | some c => simp
    | none => simp
  refine ⟨hmain, ?_⟩
  rw [drainStep]
  split
  · next hpend =>
    have hcl : drainClone s = [] := by
      rw [drainClone, hpend]
      rfl
    have hopf : drainOpfChanged s = false := by
      rw [drainOpfChanged, hcl]
      rfl
    have hv : drainValidated s = [] := by
      rw [drainValidated, hopf]
      simp [hcl]
    rw [hv]
    simp [lookupA]
  · split
    · next hcl =>
      have hopf : drainOpfChanged s = false := by
        rw [drainOpfChanged, hcl]
        rfl
      have hv : drainValidated s = [] := by
        rw [drainValidated, hopf]
        simp [hcl]
      rw [hv]
      simp [lookupA]
    · have hmain2 : lookupA ((drainResults validate pm s).foldl
          (fun d r => upsert d r.1 r.2) s.diagnostics) uri =
          (match lookupA (drainValidated s) uri with
           | some c => some (validate uri c (lookupFT (drainFT2 s) uri) (drainCtx pm s))
           | none => lookupA s.diagnostics uri) := by
        rw [lookupA_foldl_upsert _ s.diagnostics uri hresnd, hlook]
        cases hx : lookupA (drainValidated s) uri with
        | some c => simp
        | none => simp
      exact hmain2

/-- Witness for C8 at one pending stylesheet edit, with the results list
taken in completion order equal to batch order. -/
theorem perUriVersionOrdering_witness :
    lookupA ((drainResults wValidate wPm (applyEdits (initState "") wEdits)).foldl
        (fun d r => upsert d r.1 r.2) (applyEdits (initState "") wEdits).diagnostics)
      "file:///a.css" = some [] := by
  have h := (perUriVersionOrdering wValidate wPm (applyEdits (initState "") wEdits)
    (by decide) (drainResults wValidate wPm (applyEdits (initState "") wEdits))
    (List.Perm.refl _) "file:///a.css").1
  rw [h]
  decide

end ServerTheorems

end EpubLsp
